import Mathlib

/-
Verification of the blitz rate-limiting proxy core.

The Go sources are shallowly embedded:
  * durations and instants are integers counting nanoseconds
    (Go time.Duration / the instant of a time.Time);
  * Unix-millisecond timestamps are integers counting milliseconds;
  * a rate.Limiter is abstracted by a state type together with the two
    operations the selector uses (Reserve and Reservation.Cancel);
  * strings and byte slices are lists of byte values (natural numbers
    below 256);
  * big.Float arithmetic on the statistics values is modeled exactly by
    rational numbers;
  * the NaCl signing primitives (golang.org/x/crypto/nacl/sign) are
    abstracted by a scheme with a deterministic signing function (NaCl
    sign is Ed25519-style and deterministic) and a verification function
    satisfying the standard correctness property.
-/

namespace Blitz

/-! ## Construction (New, blitz.go) -/

/-- Nanoseconds in one second, the value of Go time.Second. -/
def nanosPerSecond : Int := 1000000000

/-- The value of rate.InfDuration, that is time.Duration(math.MaxInt64):
the sentinel delay on a reservation the bucket can never grant. -/
def infDuration : Int := 9223372036854775807

/-- Go conversion int(b) of a uint64 value b: reinterpret modulo 2^64 as a
two-complement signed 64-bit integer. -/
def intOfUInt64 (b : Nat) : Int :=
  if b % 18446744073709551616 < 9223372036854775808
  then ((b % 18446744073709551616 : Nat) : Int)
  else ((b % 18446744073709551616 : Nat) : Int) - 18446744073709551616

/-- Configuration of one rate.Limiter as built by New: the interval passed to
rate.Every, in nanoseconds, and the burst argument. -/
structure LimiterConfig where
  interval : Int
  burst : Int
deriving DecidableEq

/-- The per-queue configuration assembled by New. -/
structure BlitzConfig where
  every : Int
  limiters : List LimiterConfig
  statsWindows : List Int
deriving DecidableEq

/-- Model of New (blitz.go lines 20-44), restricted to the queue
configuration it builds.  When bs is empty New returns the
errAtLeastOneQueue error, modeled as none.  Otherwise, for each element b
of bs, New builds rate.NewLimiter(rate.Every(time.Second), int(b)) and
NewStats(10 * every). -/
def goNew (every : Int) (bs : List Nat) : Option BlitzConfig :=
  if bs = [] then none
  else some ⟨every,
             bs.map (fun b => ⟨nanosPerSecond, intOfUInt64 b⟩),
             bs.map (fun _ => 10 * every)⟩

/-! ## The queue selector (reserve, reserve.go) -/

/-- Abstract interface of a rate.Limiter.  reserveL is limiter.Reserve():
it mutates the limiter state and yields the delay of the issued reservation
(infDuration when the reservation is not OK; a real delay is nonnegative and
below infDuration).  cancelL is Reservation.Cancel() acting on the state of
the limiter the reservation was minted from. -/
structure LimiterOps (σ : Type) where
  reserveL : σ → σ × Int
  cancelL : σ → σ

/-- The delay that the limiter of queue j would hand out from its current
state (the value reservations[j].Delay() observed by the selector). -/
def dly {σ : Type} (ops : LimiterOps σ) (st : Nat → σ) (j : Nat) : Int :=
  (ops.reserveL (st j)).2

/-- The reservation loop of reserve (reserve.go lines 29-42).  The loop
counter nextInit runs from the requested queue down to 0 and the loop also
stops once lowestDelayValue is no longer positive.  The first component of
the result is the final limiter states, then the final lowestDelayIndex,
the final lowestDelayValue and the list of indices that were reserved, in
reservation order (descending). -/
def scanLoop {σ : Type} (ops : LimiterOps σ) :
    Nat → (Nat → σ) → Int → Int → (Nat → σ) × Int × Int × List Nat
  | 0, st, bI, bV =>
    if bV ≤ 0 then (st, bI, bV, [])
    else
      let rd := ops.reserveL (st 0)
      let st2 := Function.update st 0 rd.1
      if rd.2 < bV then (st2, 0, rd.2, [0]) else (st2, bI, bV, [0])
  | i+1, st, bI, bV =>
    if bV ≤ 0 then (st, bI, bV, [])
    else
      let rd := ops.reserveL (st (i+1))
      let st2 := Function.update st (i+1) rd.1
      let p : Int × Int := if rd.2 < bV then (((i+1 : Nat) : Int), rd.2) else (bI, bV)
      let r := scanLoop ops i st2 p.1 p.2
      (r.1, r.2.1, r.2.2.1, (i+1) :: r.2.2.2)

/-- Result of one execution of reserve: the final limiter states, the delay
of the returned reservation (none when reserve returns nil), the returned
index, and the ghost logs of the indices whose limiters were reserved and
of the reservations that were canceled. -/
structure ReserveOut (σ : Type) where
  st : Nat → σ
  resDelay : Option Int
  index : Int
  minted : List Nat
  canceled : List Nat

/-- Model of (blitz *Blitz) reserve (reserve.go lines 15-59).  n is the
number of configured queues (len(blitz.limiters)).  Out-of-range indices
return nil, -1 at once.  Otherwise the loop scanLoop reserves downward from
queue, the cancel loop walks the initialized entries upward and cancels
every reservation other than reservations[lowestDelayIndex], and reserve
returns reservations[lowestDelayIndex] when lowestDelayIndex ≥ 0 and
nil, -1 otherwise. -/
def goReserve {σ : Type} (ops : LimiterOps σ) (n : Nat) (st : Nat → σ)
    (queue : Int) : ReserveOut σ :=
  if queue < 0 ∨ (n : Int) ≤ queue then ⟨st, none, -1, [], []⟩
  else
    let out := scanLoop ops queue.toNat st (-1) infDuration
    let canceled := out.2.2.2.reverse.filter (fun (j : Nat) => decide ((j : Int) ≠ out.2.1))
    let st2 := canceled.foldl (fun s j => Function.update s j (ops.cancelL (s j))) out.1
    if 0 ≤ out.2.1 then ⟨st2, some out.2.2.1, out.2.1, out.2.2.2, canceled⟩
    else ⟨st2, none, -1, out.2.2.2, canceled⟩

/-- Pure mirror of scanLoop that records only the evolution of
(lowestDelayIndex, lowestDelayValue) and the reserved indices, given the
delay each queue would hand out. -/
def scanGo (d : Nat → Int) : Nat → Int → Int → Int × Int × List Nat
  | 0, bI, bV =>
    if bV ≤ 0 then (bI, bV, [])
    else if d 0 < bV then (0, d 0, [0]) else (bI, bV, [0])
  | i+1, bI, bV =>
    if bV ≤ 0 then (bI, bV, [])
    else if d (i+1) < bV then
      ((scanGo d i (((i+1 : Nat)) : Int) (d (i+1))).1,
       (scanGo d i (((i+1 : Nat)) : Int) (d (i+1))).2.1,
       (i+1) :: (scanGo d i (((i+1 : Nat)) : Int) (d (i+1))).2.2)
    else
      ((scanGo d i bI bV).1, (scanGo d i bI bV).2.1, (i+1) :: (scanGo d i bI bV).2.2)

/-- descList hi lo is the descending list hi, hi-1, ..., lo (for lo ≤ hi). -/
def descList : Nat → Nat → List Nat
  | 0, _ => [0]
  | i+1, lo => if i+1 ≤ lo then [i+1] else (i+1) :: descList i lo

/-- A concrete limiter instantiation used to evaluate the selector at
specific inputs: the state is the delay the limiter hands out, reserving
leaves the state unchanged and canceling does nothing. -/
def intOps : LimiterOps Int := ⟨fun s => (s, s), fun s => s⟩

/-- Number of occurrences of j in a list of indices (used to state that a
reservation is canceled exactly once). -/
def countOcc (j : Nat) : List Nat → Nat
  | [] => 0
  | a :: l => (if a = j then 1 else 0) + countOcc j l

/-! ## Using a reservation (useReservation, reserve.go) -/

/-- Outcome of useReservation. -/
inductive UseOutcome where
  | ok : UseOutcome
  | waitThenOk : UseOutcome
  | ctxCanceled : UseOutcome
  | expired : Int → Int → UseOutcome
  | badFormat : UseOutcome
  | badSignature : UseOutcome
deriving DecidableEq

/-- Model of the validity switch of useReservation (reserve.go lines
118-137).  Instants are in nanoseconds; time.Time.After and Before are
strict comparisons.  The cooperative wait on the not-yet-valid branch is
modeled by the flag cancelledBeforeFrom: whether the request context is
done before the timer for validFrom fires.  The expired branch carries
errReservationExpired with ValidUntil and CurrentTime. -/
def useReservationAt (validFrom validUntil now : Int)
    (cancelledBeforeFrom : Bool) : UseOutcome :=
  if validFrom < now ∧ now < validUntil then .ok
  else if now < validFrom then
    (if cancelledBeforeFrom then .ctxCanceled else .waitThenOk)
  else .expired validUntil now

/-! ## The signer (signer.go) -/

/-- Abstraction of the NaCl signing primitives for a fixed keypair.  sig m
is the 64-byte signature that sign.Sign prepends to the message m when
signing with the private key (NaCl sign signatures are deterministic, so
sig is a function of the message).  verify s m is the public-key check
that sign.Open performs on a candidate signature s and message m.  The
correctness field states that honestly produced signatures verify. -/
structure SignScheme where
  sig : List Nat → List Nat
  verify : List Nat → List Nat → Bool
  sig_length : ∀ m, (sig m).length = 64
  sig_bytes : ∀ m, ∀ b ∈ sig m, b < 256
  verify_sig : ∀ m, verify (sig m) m = true

/-- messageLength = 2 * (64 / 8): two 64-bit integers. -/
def messageLength : Nat := 16

/-- sign.Overhead: the signature bytes sign.Sign prepends. -/
def signOverhead : Nat := 64

/-- signatureLength = messageLength + sign.Overhead. -/
def signatureLength : Nat := messageLength + signOverhead

/-- encodedLength = base64.StdEncoding.EncodedLen(signatureLength), where
EncodedLen n = (n + 2) / 3 * 4 for a padded encoding. -/
def encodedLength : Nat := 4 * ((signatureLength + 2) / 3)

/-- sign.Sign with a fixed private key: the signature followed by the
message. -/
def signSign (S : SignScheme) (m : List Nat) : List Nat := S.sig m ++ m

/-- sign.Open with the matching public key: require at least Overhead
bytes, verify the leading 64 bytes as a signature of the rest, and on
success return the bare message. -/
def signOpen (S : SignScheme) (signed : List Nat) : Option (List Nat) :=
  if signed.length < signOverhead then none
  else if S.verify (signed.take 64) (signed.drop 64) then some (signed.drop 64)
  else none

/-! ### base64.StdEncoding (encoding/base64) -/

/-- The character (as a byte value) the standard base64 alphabet assigns to
a 6-bit group. -/
def b64EncChar (v : Nat) : Nat :=
  if v < 26 then 65 + v
  else if v < 52 then 97 + (v - 26)
  else if v < 62 then 48 + (v - 52)
  else if v = 62 then 43
  else 47

/-- base64.StdEncoding.EncodeToString: bytes in, the base64 characters (as
byte values) out, with padding 61 (the pad character) on a final group of
one or two bytes. -/
def b64Encode : List Nat → List Nat
  | [] => []
  | [b0] => [b64EncChar (b0 / 4), b64EncChar (b0 % 4 * 16), 61, 61]
  | [b0, b1] => [b64EncChar (b0 / 4), b64EncChar (b0 % 4 * 16 + b1 / 16),
                 b64EncChar (b1 % 16 * 4), 61]
  | b0 :: b1 :: b2 :: rest =>
      b64EncChar (b0 / 4) :: b64EncChar (b0 % 4 * 16 + b1 / 16) ::
      b64EncChar (b1 % 16 * 4 + b2 / 64) :: b64EncChar (b2 % 64) :: b64Encode rest

/-- The 6-bit value of a standard base64 character; none for a byte outside
the alphabet. -/
def b64DecChar (c : Nat) : Option Nat :=
  if 65 ≤ c ∧ c ≤ 90 then some (c - 65)
  else if 97 ≤ c ∧ c ≤ 122 then some (c - 97 + 26)
  else if 48 ≤ c ∧ c ≤ 57 then some (c - 48 + 52)
  else if c = 43 then some 62
  else if c = 47 then some 63
  else none

/-- Quantum-wise base64 decoding: groups of four characters, padding only
in the final quantum, trailing bits not required to be zero (the default,
non-strict behavior of Go base64 decoding). -/
def b64DecodeQ : List Nat → Option (List Nat)
  | [] => some []
  | c0 :: c1 :: c2 :: c3 :: rest =>
      (b64DecChar c0).bind (fun v0 =>
      (b64DecChar c1).bind (fun v1 =>
      if c2 = 61 then
        (if c3 = 61 ∧ rest = [] then some [v0 * 4 + v1 / 16] else none)
      else
        (b64DecChar c2).bind (fun v2 =>
        if c3 = 61 then
          (if rest = [] then some [v0 * 4 + v1 / 16, v1 % 16 * 16 + v2 / 4]
           else none)
        else
          (b64DecChar c3).bind (fun v3 =>
          (b64DecodeQ rest).map (fun bs =>
            (v0 * 4 + v1 / 16) :: (v1 % 16 * 16 + v2 / 4) ::
            (v2 % 4 * 64 + v3) :: bs)))))
  | _ => none

/-- base64.StdEncoding.DecodeString: Go base64 decoding skips carriage
returns (13) and newlines (10) and otherwise consumes four-character
quanta. -/
def b64Decode (token : List Nat) : Option (List Nat) :=
  b64DecodeQ (token.filter (fun c => decide (c ≠ 13 ∧ c ≠ 10)))

/-! ### 64-bit little-endian timestamps -/

/-- binary.LittleEndian.PutUint64: the eight bytes of v, least significant
first. -/
def le64 (v : Nat) : List Nat :=
  [v % 256, v / 256 % 256, v / 65536 % 256, v / 16777216 % 256,
   v / 4294967296 % 256, v / 1099511627776 % 256,
   v / 281474976710656 % 256, v / 72057594037927936 % 256]

/-- binary.LittleEndian.Uint64 of eight bytes, least significant first. -/
def fromLE8 (l : List Nat) : Nat :=
  l.getD 0 0 + 256 * l.getD 1 0 + 65536 * l.getD 2 0 + 16777216 * l.getD 3 0 +
  4294967296 * l.getD 4 0 + 1099511627776 * l.getD 5 0 +
  281474976710656 * l.getD 6 0 + 72057594037927936 * l.getD 7 0

/-- Go conversion uint64(x) of an int64 value x. -/
def toUInt64 (x : Int) : Nat := (x % 18446744073709551616).toNat

/-- Go conversion int64(n) of a uint64 value n. -/
def toInt64 (n : Nat) : Int :=
  if n < 9223372036854775808 then (n : Int)
  else (n : Int) - 18446744073709551616

/-! ### Encode and Decode (signer.go) -/

/-- A Go time.Time instant: whole seconds since the Unix epoch together
with the nanosecond offset within the second (0 ≤ nsec < 10^9 for the
values Go produces). -/
structure GoTime where
  sec : Int
  nsec : Int
deriving DecidableEq

/-- time.Time.UnixMilli: t.unixSec() * 1000 + t.nsec() / 1e6. -/
def GoTime.unixMilli (t : GoTime) : Int := t.sec * 1000 + t.nsec / 1000000

/-- signer.Encode (signer.go lines 46-58) after the UnixMilli conversions:
lay out the two millisecond timestamps as little-endian uint64, sign, and
base64-encode.  Conversion to UTC does not change UnixMilli. -/
def signerEncode (S : SignScheme) (fromMs untilMs : Int) : List Nat :=
  b64Encode (signSign S (le64 (toUInt64 fromMs) ++ le64 (toUInt64 untilMs)))

/-- signer.Encode on time.Time arguments: from.UTC().UnixMilli() and
until.UTC().UnixMilli() feed the byte layout. -/
def signerEncodeT (S : SignScheme) (fromT untilT : GoTime) : List Nat :=
  signerEncode S fromT.unixMilli untilT.unixMilli

/-- Result of signer.Decode: the errInvalidFormat error, the
errInvalidSignature error, or the two timestamps (Unix milliseconds; the
times are rebuilt with time.UnixMilli(...).UTC(), which this determines). -/
inductive SignerResult where
  | badFormat : SignerResult
  | badSignature : SignerResult
  | ok : Int → Int → SignerResult
deriving DecidableEq

/-- signer.Decode (signer.go lines 62-86): reject a token whose length is
not encodedLength, base64-decode (errors become errInvalidFormat), verify
and strip the signature (failure becomes errInvalidSignature), then read
the two little-endian uint64 millisecond timestamps out of the message. -/
def signerDecode (S : SignScheme) (token : List Nat) : SignerResult :=
  if token.length ≠ encodedLength then .badFormat
  else
    (b64Decode token).elim SignerResult.badFormat (fun signed =>
      (signOpen S signed).elim SignerResult.badSignature (fun message =>
        .ok (toInt64 (fromLE8 (message.take 8)))
            (toInt64 (fromLE8 ((message.drop 8).take 8)))))

/-- useReservation (reserve.go lines 110-138) end to end: decode the token,
then run the validity switch.  The decoded millisecond timestamps become
instants at millisecond boundaries (time.UnixMilli yields an instant of
ms * 10^6 nanoseconds). -/
def useReservation (S : SignScheme) (token : List Nat) (now : Int)
    (cancelledBeforeFrom : Bool) : UseOutcome :=
  match signerDecode S token with
  | .badFormat => .badFormat
  | .badSignature => .badSignature
  | .ok fromMs untilMs =>
      useReservationAt (1000000 * fromMs) (1000000 * untilMs) now cancelledBeforeFrom

/-- A degenerate signing scheme used to instantiate theorems at concrete
inputs: the signature is 64 zero bytes and verification checks exactly
that. -/
def zeroSign : SignScheme where
  sig _ := List.replicate 64 0
  verify s _ := s = List.replicate 64 0
  sig_length _ := List.length_replicate 64 0
  sig_bytes _ := by
    intro b hb
    have : b = 0 := List.eq_of_mem_replicate hb
    omega
  verify_sig _ := by simp

/-! ## Sliding-window statistics (stats.go) -/

/-- One element of the statistics sequence: the insertion instant and the
recorded big.Float value (modeled exactly as a rational). -/
structure StatElement where
  time : Int
  value : ℚ
deriving DecidableEq

/-- The Stats state: the window d, lastPurge and the entries, which the
implementation keeps weakly monotone in time. -/
structure GoStats where
  d : Int
  lastPurge : Int
  entries : List StatElement
deriving DecidableEq

/-- NewStats (stats.go line 23): empty entries, lastPurge = time.Now(). -/
def NewStats (d now : Int) : GoStats := ⟨d, now, []⟩

/-- slices.IndexFunc: the index of the first element satisfying p, none
when no element does (Go returns -1). -/
def indexFunc {α : Type} (p : α → Bool) : List α → Option Nat
  | [] => none
  | a :: l => if p a then some 0 else (indexFunc p l).map (fun i => i + 1)

/-- Stats.purge (stats.go lines 33-54): set lastPurge to now, find the
first entry with now - entry.time ≤ d, drop everything before it; clear
the sequence when no entry qualifies. -/
def GoStats.purge (s : GoStats) (now : Int) : GoStats :=
  { s with
    lastPurge := now
    entries :=
      match indexFunc (fun se => decide (now - se.time ≤ s.d)) s.entries with
      | none => []
      | some i => s.entries.drop i }

/-- Stats.add (stats.go lines 66-78): append an entry for the current time
whose value starts as the zero big.Float, let the closure f mutate that
stored value, then purge when now - lastPurge exceeds d. -/
def GoStats.addWith (s : GoStats) (now : Int) (f : ℚ → ℚ) : GoStats :=
  let s1 : GoStats := { s with entries := s.entries ++ [⟨now, f 0⟩] }
  if s1.d < now - s1.lastPurge then s1.purge now else s1

/-- Stats.Add (stats.go lines 57-59).  The closure is
func(new *big.Float) { value.Set(value) }: it writes the caller argument
onto itself and leaves the appended entry untouched, so the stored value
stays the zero big.Float whatever value was passed. -/
def GoStats.Add (s : GoStats) (now : Int) (_value : ℚ) : GoStats :=
  s.addWith now (fun stored => stored)

/-- Stats.AddInt64 (stats.go lines 62-64): the closure new.SetInt64(value)
stores the argument into the appended entry. -/
def GoStats.AddInt64 (s : GoStats) (now : Int) (value : Int) : GoStats :=
  s.addWith now (fun _ => (value : ℚ))

/-- Stats.Average (stats.go lines 81-105): purge, return zero when no
entries survive, otherwise the sum of the surviving values divided by
their number.  Returns the post-purge state alongside the value. -/
def GoStats.Average (s : GoStats) (now : Int) : GoStats × ℚ :=
  let s1 := s.purge now
  if s1.entries.length = 0 then (s1, 0)
  else (s1, (s1.entries.map StatElement.value).sum / (s1.entries.length : ℚ))

/-! ## Lemmas about the selector -/

theorem descList_mem (hi : Nat) : ∀ (lo j : Nat), lo ≤ hi →
    (j ∈ descList hi lo ↔ lo ≤ j ∧ j ≤ hi) := by
  induction hi with
  | zero =>
    intro lo j h
    have hlo : lo = 0 := Nat.le_zero.mp h
    subst hlo
    simp [descList]
  | succ i ih =>
    intro lo j h
    by_cases hc : i + 1 ≤ lo
    · have hlo : lo = i + 1 := le_antisymm h hc
      subst hlo
      simp only [descList, if_pos hc, List.mem_singleton]
      omega
    · have hlo : lo ≤ i := by omega
      simp only [descList, if_neg hc, List.mem_cons, ih lo j hlo]
      omega

theorem descList_countOcc (hi : Nat) : ∀ (lo j : Nat), lo ≤ hi →
    countOcc j (descList hi lo) = if lo ≤ j ∧ j ≤ hi then 1 else 0 := by
  induction hi with
  | zero =>
    intro lo j h
    have hlo : lo = 0 := Nat.le_zero.mp h
    subst hlo
    simp only [descList, countOcc, Nat.add_zero]
    by_cases hj : (0 : Nat) = j
    · rw [if_pos hj, if_pos (by omega)]
    · rw [if_neg hj, if_neg (by omega)]
  | succ i ih =>
    intro lo j h
    by_cases hc : i + 1 ≤ lo
    · have hlo : lo = i + 1 := le_antisymm h hc
      subst hlo
      simp only [descList, if_pos hc, countOcc, Nat.add_zero]
      by_cases hj : i + 1 = j
      · rw [if_pos hj, if_pos (by omega)]
      · rw [if_neg hj, if_neg (by omega)]
    · have hlo : lo ≤ i := by omega
      have ht := ih lo j hlo
      simp only [descList, if_neg hc, countOcc, ht]
      by_cases hj : i + 1 = j
      · rw [if_pos hj, if_neg (by omega), if_pos (by omega)]
      · rw [if_neg hj]
        by_cases hle : lo ≤ j ∧ j ≤ i
        · rw [if_pos hle, if_pos (by omega)]
        · rw [if_neg hle, if_neg (by omega)]

theorem countOcc_filter_ne (b : Int) (l : List Nat) (j : Nat) :
    countOcc j (l.filter (fun (k : Nat) => decide ((k : Int) ≠ b))) =
      if (j : Int) = b then 0 else countOcc j l := by
  induction l with
  | nil => simp [countOcc]
  | cons a l ih =>
    rw [List.filter_cons]
    by_cases ha : (a : Int) = b
    · rw [if_neg (by simp [ha]), ih]
      by_cases hj : (j : Int) = b
      · rw [if_pos hj, if_pos hj]
      · have haj : a ≠ j := fun h => hj (h ▸ ha)
        rw [if_neg hj, if_neg hj]
        simp only [countOcc, if_neg haj]
        omega
    · rw [if_pos (by simp [ha])]
      by_cases hj : (j : Int) = b
      · have haj : a ≠ j := fun h => ha (h ▸ hj)
        simp only [countOcc, ih, if_pos hj, if_neg haj]
      · simp only [countOcc, ih, if_neg hj]

theorem countOcc_length_filter_ne (m : Nat) (l : List Nat) :
    (l.filter (fun (k : Nat) => decide ((k : Int) ≠ (m : Int)))).length + countOcc m l
      = l.length := by
  induction l with
  | nil => simp [countOcc]
  | cons a l ih =>
    rw [List.filter_cons]
    by_cases ha : a = m
    · subst ha
      rw [if_neg (by simp)]
      simp only [countOcc, List.length_cons, if_true, eq_self_iff_true]
      omega
    · have hab : ((a : Int) ≠ (m : Int)) := by
        intro hx
        exact ha (by exact_mod_cast hx)
      rw [if_pos (by simp [hab])]
      simp only [countOcc, if_neg ha, List.length_cons]
      omega

theorem countOcc_append (j : Nat) (l1 l2 : List Nat) :
    countOcc j (l1 ++ l2) = countOcc j l1 + countOcc j l2 := by
  induction l1 with
  | nil => simp [countOcc]
  | cons a l ih =>
    simp only [List.cons_append, countOcc, List.append_eq, ih]
    omega

theorem countOcc_reverse (j : Nat) (l : List Nat) :
    countOcc j l.reverse = countOcc j l := by
  induction l with
  | nil => rfl
  | cons a l ih =>
    simp only [List.reverse_cons, countOcc_append, ih, countOcc, Nat.add_zero]
    omega

theorem filter_ne_neg_one (l : List Nat) :
    l.filter (fun (k : Nat) => decide ((k : Int) ≠ (-1 : Int))) = l := by
  induction l with
  | nil => rfl
  | cons a l ih =>
    rw [List.filter_cons, if_pos (by simp), ih]

/-- Full characterization of the reservation loop (pure form): the scanned
indices form a contiguous descending segment, the loop stops at 0 or on a
nonpositive best delay, every scanned index above the stopping point has a
positive delay, the final best value is a lower bound of the scanned delays
and of the incoming best value, and the final best index either is the
incoming one (when nothing scanned went strictly below the incoming best
value) or is a scanned index realizing the final best value and beating
every scanned index above it strictly. -/
theorem scanGo_char (d : Nat → Int) :
    ∀ (i : Nat) (bI bV fI fV : Int) (sc : List Nat), 0 < bV →
      scanGo d i bI bV = (fI, fV, sc) →
      ∃ s, s ≤ i ∧ sc = descList i s ∧
        (s = 0 ∨ fV ≤ 0) ∧
        (∀ j, j ∈ sc → s < j → 0 < d j) ∧
        fV ≤ bV ∧
        (∀ j, j ∈ sc → fV ≤ d j) ∧
        ((fI = bI ∧ fV = bV ∧ (∀ j, j ∈ sc → bV ≤ d j)) ∨
         (0 ≤ fI ∧ fI.toNat ∈ sc ∧ d fI.toNat = fV ∧ fV < bV ∧
          (∀ j, j ∈ sc → fI < (j : Int) → fV < d j))) := by
  intro i
  induction i with
  | zero =>
    intro bI bV fI fV sc h0 heq
    rw [scanGo, if_neg (by omega)] at heq
    by_cases hd : d 0 < bV
    · rw [if_pos hd] at heq
      injection heq with e1 e2
      injection e2 with e2 e3
      subst e1 e2 e3
      refine ⟨0, Nat.le_refl 0, rfl, Or.inl rfl, ?_, le_of_lt hd, ?_, Or.inr ?_⟩
      · intro j hj hlt
        rw [List.mem_singleton] at hj
        omega
      · intro j hj
        rw [List.mem_singleton] at hj
        subst hj
        exact le_refl _
      · refine ⟨le_refl 0, by simp, by simp, hd, ?_⟩
        intro j hj hlt
        rw [List.mem_singleton] at hj
        subst hj
        simp at hlt
    · rw [if_neg hd] at heq
      injection heq with e1 e2
      injection e2 with e2 e3
      subst e1 e2 e3
      have hge : bV ≤ d 0 := le_of_not_lt hd
      refine ⟨0, Nat.le_refl 0, rfl, Or.inl rfl, ?_, le_refl _, ?_, Or.inl ⟨rfl, rfl, ?_⟩⟩
      · intro j hj hlt
        rw [List.mem_singleton] at hj
        omega
      · intro j hj
        rw [List.mem_singleton] at hj
        subst hj
        exact hge
      · intro j hj
        rw [List.mem_singleton] at hj
        subst hj
        exact hge
  | succ i ih =>
    intro bI bV fI fV sc h0 heq
    rw [scanGo, if_neg (by omega)] at heq
    by_cases hd : d (i+1) < bV
    · rw [if_pos hd] at heq
      by_cases hdp : 0 < d (i+1)
      · rcases hg : scanGo d i (((i+1 : Nat)) : Int) (d (i+1)) with ⟨gI, gV, gsc⟩
        rw [hg] at heq
        have heq2 : (gI, gV, (i+1) :: gsc) = (fI, fV, sc) := heq
        injection heq2 with e1 e2
        injection e2 with e2 e3
        subst e1 e2 e3
        obtain ⟨s, hsle, hgsc, hstop, hab, hlev, hmin, hdisj⟩ :=
          ih (((i+1 : Nat)) : Int) (d (i+1)) gI gV gsc hdp hg
        have hmem_tail : ∀ j, j ∈ gsc → j ≤ i := by
          intro j hj
          rw [hgsc] at hj
          exact ((descList_mem i s j hsle).mp hj).2
        refine ⟨s, by omega, ?_, hstop, ?_, by omega, ?_, ?_⟩
        · rw [descList, if_neg (by omega), hgsc]
        · intro j hj hlt
          rcases List.mem_cons.mp hj with hj1 | hj2
          · subst hj1
            exact hdp
          · exact hab j hj2 hlt
        · intro j hj
          rcases List.mem_cons.mp hj with hj1 | hj2
          · subst hj1
            exact hlev
          · exact hmin j hj2
        · rcases hdisj with ⟨hI, hV, _⟩ | ⟨hge2, hmem2, hval2, hlt2, hup2⟩
          · refine Or.inr ⟨by omega, ?_, ?_, by omega, ?_⟩
            · rw [hI]
              simp
            · rw [hI]
              simpa using hV.symm
            · intro j hj hlt
              rw [hI] at hlt
              rcases List.mem_cons.mp hj with hj1 | hj2
              · subst hj1
                omega
              · have hji := hmem_tail j hj2
                omega
          · refine Or.inr ⟨hge2, List.mem_cons_of_mem _ hmem2, hval2, by omega, ?_⟩
            intro j hj hlt
            rcases List.mem_cons.mp hj with hj1 | hj2
            · subst hj1
              exact hlt2
            · exact hup2 j hj2 hlt
      · have hrec : scanGo d i (((i+1 : Nat)) : Int) (d (i+1)) =
            ((((i+1 : Nat)) : Int), d (i+1), []) := by
          cases i with
          | zero => rw [scanGo, if_pos (by omega)]
          | succ k => rw [scanGo, if_pos (by omega)]
        rw [hrec] at heq
        have heq2 : ((((i+1 : Nat)) : Int), d (i+1), [i+1]) = (fI, fV, sc) := heq
        injection heq2 with e1 e2
        injection e2 with e2 e3
        subst e1 e2 e3
        refine ⟨i+1, Nat.le_refl _, ?_, Or.inr (by omega), ?_, le_of_lt hd, ?_, Or.inr ?_⟩
        · rw [descList, if_pos (Nat.le_refl _)]
        · intro j hj hlt
          rw [List.mem_singleton] at hj
          omega
        · intro j hj
          rw [List.mem_singleton] at hj
          subst hj
          exact le_refl _
        · refine ⟨by omega, by simp, by simp, hd, ?_⟩
          intro j hj hlt
          rw [List.mem_singleton] at hj
          subst hj
          omega
    · rw [if_neg hd] at heq
      have hge : bV ≤ d (i+1) := le_of_not_lt hd
      rcases hg : scanGo d i bI bV with ⟨gI, gV, gsc⟩
      rw [hg] at heq
      have heq2 : (gI, gV, (i+1) :: gsc) = (fI, fV, sc) := heq
      injection heq2 with e1 e2
      injection e2 with e2 e3
      subst e1 e2 e3
      obtain ⟨s, hsle, hgsc, hstop, hab, hlev, hmin, hdisj⟩ :=
        ih bI bV gI gV gsc h0 hg
      have hmem_tail : ∀ j, j ∈ gsc → j ≤ i := by
        intro j hj
        rw [hgsc] at hj
        exact ((descList_mem i s j hsle).mp hj).2
      refine ⟨s, by omega, ?_, hstop, ?_, hlev, ?_, ?_⟩
      · rw [descList, if_neg (by omega), hgsc]
      · intro j hj hlt
        rcases List.mem_cons.mp hj with hj1 | hj2
        · subst hj1
          omega
        · exact hab j hj2 hlt
      · intro j hj
        rcases List.mem_cons.mp hj with hj1 | hj2
        · subst hj1
          omega
        · exact hmin j hj2
      · rcases hdisj with ⟨hI, hV, hall⟩ | ⟨hge2, hmem2, hval2, hlt2, hup2⟩
        · refine Or.inl ⟨hI, hV, ?_⟩
          intro j hj
          rcases List.mem_cons.mp hj with hj1 | hj2
          · subst hj1
            exact hge
          · exact hall j hj2
        · refine Or.inr ⟨hge2, List.mem_cons_of_mem _ hmem2, hval2, hlt2, ?_⟩
          intro j hj hlt
          rcases List.mem_cons.mp hj with hj1 | hj2
          · subst hj1
            omega
          · exact hup2 j hj2 hlt

/-- The delays observed by scanLoop agree with scanGo over the initial
states as long as the states at indices not yet visited are untouched. -/
theorem scanLoop_snd {σ : Type} (ops : LimiterOps σ) (st0 : Nat → σ) :
    ∀ (i : Nat) (st : Nat → σ) (bI bV : Int), (∀ j, j ≤ i → st j = st0 j) →
      (scanLoop ops i st bI bV).2 = scanGo (dly ops st0) i bI bV := by
  intro i
  induction i with
  | zero =>
    intro st bI bV hst
    have h0 : st 0 = st0 0 := hst 0 (Nat.le_refl 0)
    simp only [scanLoop, scanGo, dly, h0]
    by_cases hg : bV ≤ 0
    · rw [if_pos hg, if_pos hg]
    · rw [if_neg hg, if_neg hg]
      by_cases hd : (ops.reserveL (st0 0)).2 < bV
      · rw [if_pos hd, if_pos hd]
      · rw [if_neg hd, if_neg hd]
  | succ i ih =>
    intro st bI bV hst
    have hi1 : st (i+1) = st0 (i+1) := hst (i+1) (Nat.le_refl _)
    simp only [scanLoop, scanGo, dly, hi1]
    by_cases hg : bV ≤ 0
    · rw [if_pos hg, if_pos hg]
    · rw [if_neg hg, if_neg hg]
      have hinv : ∀ j, j ≤ i →
          Function.update st (i+1) (ops.reserveL (st0 (i+1))).1 j = st0 j := by
        intro j hj
        rw [Function.update_noteq (by omega)]
        exact hst j (by omega)
      by_cases hd : (ops.reserveL (st0 (i+1))).2 < bV
      · rw [if_pos hd, if_pos hd]
        rw [ih _ _ _ hinv]
      · rw [if_neg hd, if_neg hd]
        rw [ih _ _ _ hinv]

/-- scanLoop only touches the limiters at indices at most the starting
index. -/
theorem scanLoop_frame {σ : Type} (ops : LimiterOps σ) :
    ∀ (i : Nat) (st : Nat → σ) (bI bV : Int) (j : Nat), i < j →
      (scanLoop ops i st bI bV).1 j = st j := by
  intro i
  induction i with
  | zero =>
    intro st bI bV j hj
    simp only [scanLoop]
    by_cases hg : bV ≤ 0
    · rw [if_pos hg]
    · rw [if_neg hg]
      by_cases hd : (ops.reserveL (st 0)).2 < bV
      · rw [if_pos hd]
        exact Function.update_noteq (by omega) _ _
      · rw [if_neg hd]
        exact Function.update_noteq (by omega) _ _
  | succ i ih =>
    intro st bI bV j hj
    simp only [scanLoop]
    by_cases hg : bV ≤ 0
    · rw [if_pos hg]
    · rw [if_neg hg]
      by_cases hd : (ops.reserveL (st (i+1))).2 < bV
      · rw [if_pos hd]
        rw [ih _ _ _ j (by omega)]
        exact Function.update_noteq (by omega) _ _
      · rw [if_neg hd]
        rw [ih _ _ _ j (by omega)]
        exact Function.update_noteq (by omega) _ _

/-- The cancel fold leaves every index it does not cancel untouched. -/
theorem foldl_update_frame {σ : Type} (ops : LimiterOps σ) :
    ∀ (l : List Nat) (st : Nat → σ) (j : Nat), j ∉ l →
      (l.foldl (fun s k => Function.update s k (ops.cancelL (s k))) st) j = st j := by
  intro l
  induction l with
  | nil =>
    intro st j _
    rfl
  | cons a l ih =>
    intro st j h
    have hja : j ≠ a := fun e => h (e ▸ List.mem_cons_self a l)
    rw [List.foldl_cons, ih _ j (fun hm => h (List.mem_cons_of_mem a hm))]
    exact Function.update_noteq hja _ _

/-- reserve with an out-of-range queue index returns nil, -1 and changes
nothing. -/
theorem goReserve_out_of_range {σ : Type} (ops : LimiterOps σ) (n : Nat)
    (st : Nat → σ) (queue : Int) (h : queue < 0 ∨ (n : Int) ≤ queue) :
    goReserve ops n st queue = ⟨st, none, -1, [], []⟩ := by
  rw [goReserve, if_pos h]

/-- The observable components of reserve on an in-range queue, in terms of
the pure scan. -/
theorem goReserve_components {σ : Type} (ops : LimiterOps σ) (n : Nat)
    (st : Nat → σ) (queue : Int) (h0 : 0 ≤ queue) (h1 : queue < (n : Int)) :
    (goReserve ops n st queue).index =
      (if 0 ≤ (scanGo (dly ops st) queue.toNat (-1) infDuration).1
       then (scanGo (dly ops st) queue.toNat (-1) infDuration).1 else -1) ∧
    (goReserve ops n st queue).minted =
      (scanGo (dly ops st) queue.toNat (-1) infDuration).2.2 ∧
    (goReserve ops n st queue).resDelay =
      (if 0 ≤ (scanGo (dly ops st) queue.toNat (-1) infDuration).1
       then some (scanGo (dly ops st) queue.toNat (-1) infDuration).2.1 else none) ∧
    (goReserve ops n st queue).canceled =
      ((scanGo (dly ops st) queue.toNat (-1) infDuration).2.2.reverse.filter
        (fun (j : Nat) =>
          decide ((j : Int) ≠ (scanGo (dly ops st) queue.toNat (-1) infDuration).1))) := by
  have hsnd := scanLoop_snd ops st queue.toNat st (-1) infDuration (fun _ _ => rfl)
  simp only [goReserve, if_neg (show ¬(queue < 0 ∨ (n : Int) ≤ queue) by omega), hsnd]
  by_cases hidx : 0 ≤ (scanGo (dly ops st) queue.toNat (-1) infDuration).1
  · rw [if_pos hidx, if_pos hidx, if_pos hidx]
    exact ⟨rfl, rfl, rfl, rfl⟩
  · rw [if_neg hidx, if_neg hidx, if_neg hidx]
    exact ⟨rfl, rfl, rfl, rfl⟩

theorem infDuration_pos : (0 : Int) < infDuration := by norm_num [infDuration]

/-- reserve never touches a limiter above the requested queue index. -/
theorem goReserve_frame {σ : Type} (ops : LimiterOps σ) (n : Nat) (st : Nat → σ)
    (queue : Int) (j : Nat) (hj : queue < (j : Int)) :
    (goReserve ops n st queue).st j = st j := by
  by_cases hr : queue < 0 ∨ (n : Int) ≤ queue
  · rw [goReserve_out_of_range ops n st queue hr]
  · have hsnd := scanLoop_snd ops st queue.toNat st (-1) infDuration (fun _ _ => rfl)
    rcases hgc : scanGo (dly ops st) queue.toNat (-1) infDuration with ⟨gI, gV, gsc⟩
    obtain ⟨s, hsle, hsc, -, -, -, -, -⟩ :=
      scanGo_char (dly ops st) queue.toNat (-1) infDuration gI gV gsc infDuration_pos hgc
    have hq : queue.toNat < j := by omega
    have hnotmem : j ∉ gsc.reverse.filter (fun (k : Nat) => decide ((k : Int) ≠ gI)) := by
      intro hmem
      have h2 := List.mem_of_mem_filter hmem
      rw [List.mem_reverse, hsc] at h2
      have := ((descList_mem queue.toNat s j hsle).mp h2).2
      omega
    simp only [goReserve, if_neg hr, hsnd, hgc]
    by_cases hidx : 0 ≤ gI
    · rw [if_pos hidx]
      exact (foldl_update_frame ops _ _ j hnotmem).trans
        (scanLoop_frame ops queue.toNat st (-1) infDuration j hq)
    · rw [if_neg hidx]
      exact (foldl_update_frame ops _ _ j hnotmem).trans
        (scanLoop_frame ops queue.toNat st (-1) infDuration j hq)

/-- C9: reserve with an out-of-range index returns nil, -1 and leaves all
limiter state untouched; with an in-range index it leaves every limiter
above the requested queue untouched (only limiters 0..queue can be
touched). -/
theorem claimC9 {σ : Type} (ops : LimiterOps σ) (n : Nat) (st : Nat → σ)
    (queue : Int) :
    ((queue < 0 ∨ (n : Int) ≤ queue) →
      goReserve ops n st queue = ⟨st, none, -1, [], []⟩) ∧
    (0 ≤ queue → queue < (n : Int) → ∀ j : Nat, queue < (j : Int) →
      (goReserve ops n st queue).st j = st j) :=
  ⟨fun h => goReserve_out_of_range ops n st queue h,
   fun _ _ j hj => goReserve_frame ops n st queue j hj⟩

/-- Witness for C9 at concrete inputs: queue 5 of 2 is rejected without
state change and queue 1 of 2 leaves limiter 3 untouched. -/
theorem claimC9_witness :
    goReserve intOps 2 (fun k => (k : Int)) 5 =
      ⟨(fun k => (k : Int)), none, -1, [], []⟩ ∧
    (goReserve intOps 2 (fun k => (k : Int)) 1).st 3 = (fun k => (k : Int)) 3 :=
  ⟨(claimC9 intOps 2 (fun k => (k : Int)) 5).1 (by decide),
   (claimC9 intOps 2 (fun k => (k : Int)) 1).2 (by decide) (by decide) 3 (by decide)⟩

/-- C3: in every execution of reserve, every minted reservation other than
the returned one is canceled exactly once, the returned one is never
canceled, and the number of canceled reservations is (minted - 1) on
success and exactly the number minted on failure. -/
theorem claimC3 {σ : Type} (ops : LimiterOps σ) (n : Nat) (st : Nat → σ)
    (queue : Int) :
    (0 ≤ (goReserve ops n st queue).index →
      (goReserve ops n st queue).index.toNat ∈ (goReserve ops n st queue).minted ∧
      countOcc (goReserve ops n st queue).index.toNat
        (goReserve ops n st queue).canceled = 0 ∧
      (∀ j, j ∈ (goReserve ops n st queue).minted →
        (j : Int) ≠ (goReserve ops n st queue).index →
        countOcc j (goReserve ops n st queue).canceled = 1) ∧
      (goReserve ops n st queue).canceled.length + 1 =
        (goReserve ops n st queue).minted.length) ∧
    ((goReserve ops n st queue).index = -1 →
      (∀ j, j ∈ (goReserve ops n st queue).minted →
        countOcc j (goReserve ops n st queue).canceled = 1) ∧
      (goReserve ops n st queue).canceled.length =
        (goReserve ops n st queue).minted.length) := by
  by_cases hr : queue < 0 ∨ (n : Int) ≤ queue
  · rw [goReserve_out_of_range ops n st queue hr]
    constructor
    · intro h
      exact absurd h (by norm_num)
    · intro _
      exact ⟨fun j hj => absurd hj (List.not_mem_nil j), rfl⟩
  · obtain ⟨hidx, hmin, hdel, hcan⟩ :=
      goReserve_components ops n st queue (by omega) (by omega)
    rcases hgc : scanGo (dly ops st) queue.toNat (-1) infDuration with ⟨gI, gV, gsc⟩
    simp only [hgc] at hidx hmin hdel hcan
    obtain ⟨s, hsle, hsc, -, -, -, -, hdisj⟩ :=
      scanGo_char (dly ops st) queue.toNat (-1) infDuration gI gV gsc infDuration_pos hgc
    have hmem_count : ∀ j, j ∈ gsc → countOcc j gsc = 1 := by
      intro j hj
      rw [hsc] at hj
      obtain ⟨hj1, hj2⟩ := (descList_mem queue.toNat s j hsle).mp hj
      rw [hsc, descList_countOcc queue.toNat s j hsle, if_pos ⟨hj1, hj2⟩]
    constructor
    · intro hpos
      have hgpos : 0 ≤ gI := by
        by_contra hneg
        rw [hidx] at hpos
        rw [if_neg hneg] at hpos
        omega
      rw [if_pos hgpos] at hidx hdel
      have hIm : gI.toNat ∈ gsc ∧ dly ops st gI.toNat = gV := by
        rcases hdisj with ⟨hI, -, -⟩ | ⟨-, h2, h3, -, -⟩
        · rw [hI] at hgpos
          exact absurd hgpos (by norm_num)
        · exact ⟨h2, h3⟩
      have hcast : ((gI.toNat : Nat) : Int) = gI := Int.toNat_of_nonneg hgpos
      refine ⟨?_, ?_, ?_, ?_⟩
      · rw [hmin, hidx]
        exact hIm.1
      · rw [hcan, hidx, countOcc_filter_ne, if_pos hcast]
      · intro j hj hne
        rw [hmin] at hj
        rw [hidx] at hne
        rw [hcan, countOcc_filter_ne, if_neg hne, countOcc_reverse]
        exact hmem_count j hj
      · rw [hcan, hmin]
        have hlf := countOcc_length_filter_ne gI.toNat gsc.reverse
        rw [hcast] at hlf
        rw [countOcc_reverse] at hlf
        have h1 : countOcc gI.toNat gsc = 1 := hmem_count gI.toNat hIm.1
        rw [h1] at hlf
        rw [← List.length_reverse gsc]
        omega
    · intro hneg1
      have hgneg : ¬ 0 ≤ gI := by
        intro hge
        rw [hidx, if_pos hge] at hneg1
        omega
      have hgI : gI = -1 := by
        rcases hdisj with ⟨hI, -, -⟩ | ⟨h1, -, -, -, -⟩
        · exact hI
        · exact absurd h1 hgneg
      subst hgI
      rw [hcan, filter_ne_neg_one]
      constructor
      · intro j hj
        rw [hmin] at hj
        rw [countOcc_reverse]
        exact hmem_count j hj
      · rw [hmin]
        exact List.length_reverse gsc

/-- Witness for C3: with two queues of delays 1 and 2 and requested queue
1, reserve scans both, returns queue 0 and cancels exactly the reservation
of queue 1. -/
theorem claimC3_witness :
    ((goReserve intOps 2 (fun k => (k : Int) + 1) 1).index.toNat ∈
        (goReserve intOps 2 (fun k => (k : Int) + 1) 1).minted ∧
      countOcc (goReserve intOps 2 (fun k => (k : Int) + 1) 1).index.toNat
        (goReserve intOps 2 (fun k => (k : Int) + 1) 1).canceled = 0 ∧
      (∀ j, j ∈ (goReserve intOps 2 (fun k => (k : Int) + 1) 1).minted →
        (j : Int) ≠ (goReserve intOps 2 (fun k => (k : Int) + 1) 1).index →
        countOcc j (goReserve intOps 2 (fun k => (k : Int) + 1) 1).canceled = 1) ∧
      (goReserve intOps 2 (fun k => (k : Int) + 1) 1).canceled.length + 1 =
        (goReserve intOps 2 (fun k => (k : Int) + 1) 1).minted.length) :=
  (claimC3 intOps 2 (fun k => (k : Int) + 1) 1).1 (by decide)

/-- C4 (amended): for an in-range queue, reserve scans a contiguous
segment of queues from the requested one downward, stopping early exactly
when a nonpositive (zero) delay is seen; provided some scanned reservation
has finite delay, it returns the reservation of the highest-index scanned
queue of minimal delay (ties go to the higher index, a lower index wins
only with strictly lower delay); when every scanned delay is infinite it
returns nil, -1. -/
theorem claimC4 {σ : Type} (ops : LimiterOps σ) (n : Nat) (st : Nat → σ)
    (queue : Int) (h0 : 0 ≤ queue) (h1 : queue < (n : Int)) :
    ∃ s, s ≤ queue.toNat ∧
      (goReserve ops n st queue).minted = descList queue.toNat s ∧
      (∀ j, j ∈ (goReserve ops n st queue).minted → s < j → 0 < dly ops st j) ∧
      (0 < s → dly ops st s ≤ 0) ∧
      ((∃ j, j ∈ (goReserve ops n st queue).minted ∧ dly ops st j < infDuration) →
        0 ≤ (goReserve ops n st queue).index ∧
        (goReserve ops n st queue).index.toNat ∈ (goReserve ops n st queue).minted ∧
        (goReserve ops n st queue).resDelay =
          some (dly ops st (goReserve ops n st queue).index.toNat) ∧
        (∀ j, j ∈ (goReserve ops n st queue).minted →
          dly ops st (goReserve ops n st queue).index.toNat ≤ dly ops st j) ∧
        (∀ j, j ∈ (goReserve ops n st queue).minted →
          dly ops st j = dly ops st (goReserve ops n st queue).index.toNat →
          j ≤ (goReserve ops n st queue).index.toNat)) ∧
      ((∀ j, j ∈ (goReserve ops n st queue).minted → infDuration ≤ dly ops st j) →
        (goReserve ops n st queue).index = -1 ∧
        (goReserve ops n st queue).resDelay = none) := by
  obtain ⟨hidx, hmin, hdel, hcan⟩ :=
    goReserve_components ops n st queue h0 h1
  rcases hgc : scanGo (dly ops st) queue.toNat (-1) infDuration with ⟨gI, gV, gsc⟩
  simp only [hgc] at hidx hmin hdel hcan
  obtain ⟨s, hsle, hsc, hstop, hab, hlev, hmindl, hdisj⟩ :=
    scanGo_char (dly ops st) queue.toNat (-1) infDuration gI gV gsc infDuration_pos hgc
  refine ⟨s, hsle, by rw [hmin, hsc], ?_, ?_, ?_, ?_⟩
  · intro j hj hlt
    rw [hmin] at hj
    exact hab j hj hlt
  · intro hs
    rcases hdisj with ⟨-, hV, -⟩ | ⟨hge, hmem, hval, -, -⟩
    · rcases hstop with h | h
      · omega
      · rw [hV] at h
        exact absurd h (by norm_num [infDuration])
    · have hVle : gV ≤ 0 := by
        rcases hstop with h | h
        · omega
        · exact h
      have hsmem : s ∈ gsc := by
        rw [hsc]
        exact (descList_mem queue.toNat s s hsle).mpr ⟨Nat.le_refl s, hsle⟩
      have hIs : gI.toNat = s := by
        rw [hsc] at hmem
        obtain ⟨hm1, hm2⟩ := (descList_mem queue.toNat s gI.toNat hsle).mp hmem
        by_contra hne
        have hlt : s < gI.toNat := by omega
        have := hab gI.toNat (hsc ▸ hmem) hlt
        omega
      rw [← hIs]
      omega
  · intro ⟨j, hj, hfin⟩
    rw [hmin] at hj
    rcases hdisj with ⟨-, -, hall⟩ | ⟨hge, hmem, hval, hlt, hup⟩
    · have := hall j hj
      omega
    · rw [if_pos hge] at hidx hdel
      refine ⟨by omega, ?_, ?_, ?_, ?_⟩
      · rw [hmin, hidx]
        exact hmem
      · rw [hdel, hidx, hval]
      · intro k hk
        rw [hmin] at hk
        rw [hidx, hval]
        exact hmindl k hk
      · intro k hk hkval
        rw [hmin] at hk
        rw [hidx] at hkval ⊢
        rw [hval] at hkval
        by_contra hgt
        have hcast : gI < (k : Int) := by omega
        have := hup k hk hcast
        omega
  · intro hall
    have hgI : gI = -1 := by
      rcases hdisj with ⟨hI, -, -⟩ | ⟨hge, hmem, hval, hlt, -⟩
      · exact hI
      · rw [hmin] at hall
        have := hall gI.toNat hmem
        omega
    subst hgI
    rw [if_neg (by norm_num)] at hidx hdel
    exact ⟨hidx, hdel⟩

/-- Witness for C4 (amended) at delays 1 and 2 on two queues: both queues
are scanned and queue 0 with the strictly lower delay wins. -/
theorem claimC4_witness :
    ∃ s, s ≤ (1 : Int).toNat ∧
      (goReserve intOps 2 (fun k => (k : Int) + 1) 1).minted =
        descList (1 : Int).toNat s ∧
      (∀ j, j ∈ (goReserve intOps 2 (fun k => (k : Int) + 1) 1).minted → s < j →
        0 < dly intOps (fun k => (k : Int) + 1) j) ∧
      (0 < s → dly intOps (fun k => (k : Int) + 1) s ≤ 0) ∧
      ((∃ j, j ∈ (goReserve intOps 2 (fun k => (k : Int) + 1) 1).minted ∧
          dly intOps (fun k => (k : Int) + 1) j < infDuration) →
        0 ≤ (goReserve intOps 2 (fun k => (k : Int) + 1) 1).index ∧
        (goReserve intOps 2 (fun k => (k : Int) + 1) 1).index.toNat ∈
          (goReserve intOps 2 (fun k => (k : Int) + 1) 1).minted ∧
        (goReserve intOps 2 (fun k => (k : Int) + 1) 1).resDelay =
          some (dly intOps (fun k => (k : Int) + 1)
            (goReserve intOps 2 (fun k => (k : Int) + 1) 1).index.toNat) ∧
        (∀ j, j ∈ (goReserve intOps 2 (fun k => (k : Int) + 1) 1).minted →
          dly intOps (fun k => (k : Int) + 1)
            (goReserve intOps 2 (fun k => (k : Int) + 1) 1).index.toNat ≤
          dly intOps (fun k => (k : Int) + 1) j) ∧
        (∀ j, j ∈ (goReserve intOps 2 (fun k => (k : Int) + 1) 1).minted →
          dly intOps (fun k => (k : Int) + 1) j =
            dly intOps (fun k => (k : Int) + 1)
              (goReserve intOps 2 (fun k => (k : Int) + 1) 1).index.toNat →
          j ≤ (goReserve intOps 2 (fun k => (k : Int) + 1) 1).index.toNat)) ∧
      ((∀ j, j ∈ (goReserve intOps 2 (fun k => (k : Int) + 1) 1).minted →
          infDuration ≤ dly intOps (fun k => (k : Int) + 1) j) →
        (goReserve intOps 2 (fun k => (k : Int) + 1) 1).index = -1 ∧
        (goReserve intOps 2 (fun k => (k : Int) + 1) 1).resDelay = none) :=
  claimC4 intOps 2 (fun k => (k : Int) + 1) 1 (by decide) (by decide)

/-- C4 as literally stated fails when every scanned reservation has
infinite delay: with one queue whose limiter hands out InfDuration, queue
0 is scanned (so it is the highest-index scanned queue of minimal delay),
yet reserve returns nil, -1 instead of that reservation. -/
theorem claimC4_counter :
    (goReserve intOps 1 (fun _ => infDuration) 0).minted = [0] ∧
    (∀ j, j ∈ (goReserve intOps 1 (fun _ => infDuration) 0).minted →
      dly intOps (fun _ => infDuration) 0 ≤ dly intOps (fun _ => infDuration) j) ∧
    (goReserve intOps 1 (fun _ => infDuration) 0).index = -1 ∧
    (goReserve intOps 1 (fun _ => infDuration) 0).resDelay = none := by
  decide

/-! ## Claims about construction and reservation use -/

theorem intOfUInt64_small (b : Nat) (hb : b < 9223372036854775808) :
    intOfUInt64 b = (b : Int) := by
  simp only [intOfUInt64]
  rw [Nat.mod_eq_of_lt (by omega), if_pos hb]

theorem getD_map_lt {α β : Type} (f : α → β) (l : List α) :
    ∀ (i : Nat), i < l.length → ∀ (da : α) (db : β),
      (l.map f).getD i db = f (l.getD i da) := by
  induction l with
  | nil =>
    intro i hi
    simp at hi
  | cons a l ih =>
    intro i hi da db
    cases i with
    | zero => rfl
    | succ k =>
      have hk : k < l.length := by
        simp only [List.length_cons] at hi
        omega
      exact ih k hk da db

/-- C1 (amended): New builds, for every queue i, a limiter of burst int
value B[i] whose refill interval is fixed at one second, independent of
every and of B[i]. -/
theorem claimC1 (every : Int) (bs : List Nat) (i : Nat) (hi : i < bs.length)
    (hb : ∀ b, b ∈ bs → b < 9223372036854775808) :
    ∃ cfg, goNew every bs = some cfg ∧
      cfg.limiters.length = bs.length ∧
      cfg.limiters.getD i ⟨0, 0⟩ =
        ⟨nanosPerSecond, ((bs.getD i 0 : Nat) : Int)⟩ ∧
      cfg.statsWindows.getD i 0 = 10 * every := by
  have hne : bs ≠ [] := by
    intro h
    rw [h] at hi
    simp at hi
  refine ⟨⟨every, bs.map (fun b => ⟨nanosPerSecond, intOfUInt64 b⟩),
           bs.map (fun _ => 10 * every)⟩, ?_, ?_, ?_, ?_⟩
  · rw [goNew, if_neg hne]
  · exact List.length_map bs _
  · show (bs.map (fun b => (⟨nanosPerSecond, intOfUInt64 b⟩ : LimiterConfig))).getD i ⟨0, 0⟩ = _
    rw [getD_map_lt (fun b => (⟨nanosPerSecond, intOfUInt64 b⟩ : LimiterConfig)) bs i hi 0 ⟨0, 0⟩]
    have hmem : bs.getD i 0 ∈ bs := by
      rw [List.getD_eq_getElem?_getD, List.getElem?_eq_getElem hi]
      exact List.getElem_mem hi
    rw [intOfUInt64_small _ (hb _ hmem)]
  · show (bs.map (fun _ => 10 * every)).getD i 0 = 10 * every
    rw [getD_map_lt (fun _ => 10 * every) bs i hi 0 0]

/-- Witness for C1 (amended): every = 2s, bursts [5]. -/
theorem claimC1_witness :
    ∃ cfg, goNew 2000000000 [5] = some cfg ∧
      cfg.limiters.length = [5].length ∧
      cfg.limiters.getD 0 ⟨0, 0⟩ =
        ⟨nanosPerSecond, (([5].getD 0 0 : Nat) : Int)⟩ ∧
      cfg.statsWindows.getD 0 0 = 10 * 2000000000 :=
  claimC1 2000000000 [5] 0 (by decide) (by decide)

/-- C1 as literally stated fails: with every = 2s and B = [5], the claim
requires a refill interval of every / B[0] = 400ms, but New passes
rate.Every(time.Second), a fixed one-second interval. -/
theorem claimC1_counter :
    goNew 2000000000 [5] =
      some ⟨2000000000, [⟨1000000000, 5⟩], [20000000000]⟩ ∧
    ¬ ((1000000000 : Int) = 2000000000 / 5) := by
  constructor
  · decide
  · decide

/-- C2: at the instant now = validFrom (with validFrom < validUntil) the
claim requires success, but time.Time.After is strict, so useReservation
falls through to the default branch and returns the reservation-expired
error carrying validUntil and now even though now < validUntil.  The last
conjunct runs the full pipeline on a validly signed token minted for
milliseconds 0 to 1000, used at instant 0. -/
theorem claimC2 :
    useReservationAt 0 1000000000 0 false = UseOutcome.expired 1000000000 0 ∧
    UseOutcome.expired 1000000000 0 ≠ UseOutcome.ok ∧
    useReservation zeroSign (signerEncode zeroSign 0 1000) 0 false =
      UseOutcome.expired 1000000000 0 := by
  refine ⟨by decide, by decide, by decide⟩

/-- C7: Add appends one entry timestamped now, but the stored value is the
zero big.Float rather than the argument, because the closure
value.Set(value) writes the caller argument onto itself and never touches
the new entry; AddInt64 stores its argument as claimed.  The last two
conjuncts show the purge trigger: lastPurge is updated exactly when
now - lastPurge exceeds the window. -/
theorem claimC7 :
    ((NewStats 10 0).Add 1 3).entries = [⟨1, 0⟩] ∧
    ((0 : ℚ) ≠ 3) ∧
    ((NewStats 10 0).AddInt64 1 3).entries = [⟨1, 3⟩] ∧
    ((NewStats 10 0).Add 12 3).lastPurge = 12 ∧
    ((NewStats 10 0).Add 10 3).lastPurge = 0 := by
  refine ⟨by decide, by decide, by decide, by decide, by decide⟩

/-! ## Claims about the statistics window -/

theorem indexFunc_drop_le (d now : Int) :
    ∀ (l : List StatElement), l.Pairwise (fun a b => a.time ≤ b.time) →
      ∀ e, e ∈ (match indexFunc (fun se => decide (now - se.time ≤ d)) l with
                | none => ([] : List StatElement)
                | some i => l.drop i) → now - e.time ≤ d := by
  intro l
  induction l with
  | nil =>
    intro _ e he
    simp [indexFunc] at he
  | cons a l ih =>
    intro hp e he
    rw [List.pairwise_cons] at hp
    by_cases hpa : now - a.time ≤ d
    · rw [indexFunc, if_pos (by simpa using hpa)] at he
      have he2 : e ∈ a :: l := he
      rcases List.mem_cons.mp he2 with he1 | he3
      · subst he1
        exact hpa
      · have := hp.1 e he3
        omega
    · rw [indexFunc, if_neg (by simpa using hpa)] at he
      rcases hif : indexFunc (fun se => decide (now - se.time ≤ d)) l with - | i
      · rw [hif] at he
        have he2 : e ∈ ([] : List StatElement) := he
        exact absurd he2 (List.not_mem_nil e)
      · rw [hif] at he
        have he2 : e ∈ l.drop i := he
        refine ih hp.2 e ?_
        rw [hif]
        exact he2

theorem purge_le (s : GoStats) (now : Int)
    (hmono : s.entries.Pairwise (fun a b => a.time ≤ b.time)) :
    ∀ e, e ∈ (s.purge now).entries → now - e.time ≤ s.d := by
  intro e he
  exact indexFunc_drop_le s.d now s.entries hmono e he

theorem purge_drop (s : GoStats) (now : Int) :
    ∃ k, (s.purge now).entries = s.entries.drop k := by
  simp only [GoStats.purge]
  rcases hif : indexFunc (fun se => decide (now - se.time ≤ s.d)) s.entries with - | i
  · rw [hif]
    exact ⟨s.entries.length, (List.drop_length s.entries).symm⟩
  · rw [hif]
    exact ⟨i, rfl⟩

/-- C8: Average purges first, so that afterwards (provided the entries are
weakly monotone in time, the documented invariant of the structure) no
surviving sample is older than the window; the survivors are a suffix of
the original entries, in their original order; and the returned value is
the arithmetic mean of the surviving values, zero when none survive. -/
theorem claimC8 (s : GoStats) (now : Int)
    (hmono : s.entries.Pairwise (fun a b => a.time ≤ b.time)) :
    (∀ e, e ∈ (s.Average now).1.entries → now - e.time ≤ s.d) ∧
    (∃ k, (s.Average now).1.entries = s.entries.drop k) ∧
    ((s.Average now).1.entries = [] → (s.Average now).2 = 0) ∧
    ((s.Average now).1.entries ≠ [] →
      (s.Average now).2 =
        ((s.Average now).1.entries.map StatElement.value).sum /
          ((s.Average now).1.entries.length : ℚ)) := by
  have h1 : (s.Average now).1 = s.purge now := by
    simp only [GoStats.Average]
    by_cases h : (s.purge now).entries.length = 0
    · rw [if_pos h]
    · rw [if_neg h]
  refine ⟨?_, ?_, ?_, ?_⟩
  · intro e he
    rw [h1] at he
    exact purge_le s now hmono e he
  · rw [h1]
    exact purge_drop s now
  · intro hemp
    rw [h1] at hemp
    simp only [GoStats.Average]
    rw [if_pos (by rw [hemp]; rfl)]
  · intro hne
    rw [h1] at hne
    have hlen : (s.purge now).entries.length ≠ 0 := by
      intro h
      exact hne (List.length_eq_zero.mp h)
    rw [h1]
    simp only [GoStats.Average]
    rw [if_neg hlen]

/-- Witness for C8: window 10, entries at times 0 and 5 with values 2 and
4, averaged at time 12: the first entry is purged and the average of the
survivors is 4. -/
theorem claimC8_witness :
    (∀ e, e ∈ (((⟨10, 0, [⟨0, 2⟩, ⟨5, 4⟩]⟩ : GoStats).Average 12).1.entries) →
      12 - e.time ≤ (⟨10, 0, [⟨0, 2⟩, ⟨5, 4⟩]⟩ : GoStats).d) ∧
    (∃ k, (((⟨10, 0, [⟨0, 2⟩, ⟨5, 4⟩]⟩ : GoStats).Average 12).1.entries) =
      (⟨10, 0, [⟨0, 2⟩, ⟨5, 4⟩]⟩ : GoStats).entries.drop k) ∧
    ((((⟨10, 0, [⟨0, 2⟩, ⟨5, 4⟩]⟩ : GoStats).Average 12).1.entries) = [] →
      ((⟨10, 0, [⟨0, 2⟩, ⟨5, 4⟩]⟩ : GoStats).Average 12).2 = 0) ∧
    ((((⟨10, 0, [⟨0, 2⟩, ⟨5, 4⟩]⟩ : GoStats).Average 12).1.entries) ≠ [] →
      ((⟨10, 0, [⟨0, 2⟩, ⟨5, 4⟩]⟩ : GoStats).Average 12).2 =
        ((((⟨10, 0, [⟨0, 2⟩, ⟨5, 4⟩]⟩ : GoStats).Average 12).1.entries).map
            StatElement.value).sum /
          (((((⟨10, 0, [⟨0, 2⟩, ⟨5, 4⟩]⟩ : GoStats).Average 12).1.entries)).length : ℚ)) :=
  claimC8 ⟨10, 0, [⟨0, 2⟩, ⟨5, 4⟩]⟩ 12 (by decide)

/-! ## Claims about the signer -/

theorem b64EncDec : ∀ v, v < 64 → b64DecChar (b64EncChar v) = some v := by
  decide

theorem b64EncChar_ge (v : Nat) : 43 ≤ b64EncChar v := by
  simp only [b64EncChar]
  split_ifs <;> omega

theorem b64EncChar_ne_pad (v : Nat) : b64EncChar v ≠ 61 := by
  simp only [b64EncChar]
  split_ifs <;> omega

theorem b64Encode_not_crlf : ∀ (bs : List Nat) (c : Nat), c ∈ b64Encode bs →
    c ≠ 13 ∧ c ≠ 10
  | [], c, hc => absurd hc (List.not_mem_nil c)
  | [b0], c, hc => by
    rw [b64Encode] at hc
    simp only [List.mem_cons, List.not_mem_nil, or_false] at hc
    rcases hc with rfl | rfl | rfl | rfl
    · exact ⟨by have := b64EncChar_ge (b0 / 4); omega,
             by have := b64EncChar_ge (b0 / 4); omega⟩
    · exact ⟨by have := b64EncChar_ge (b0 % 4 * 16); omega,
             by have := b64EncChar_ge (b0 % 4 * 16); omega⟩
    · exact ⟨by omega, by omega⟩
    · exact ⟨by omega, by omega⟩
  | [b0, b1], c, hc => by
    rw [b64Encode] at hc
    simp only [List.mem_cons, List.not_mem_nil, or_false] at hc
    rcases hc with rfl | rfl | rfl | rfl
    · exact ⟨by have := b64EncChar_ge (b0 / 4); omega,
             by have := b64EncChar_ge (b0 / 4); omega⟩
    · exact ⟨by have := b64EncChar_ge (b0 % 4 * 16 + b1 / 16); omega,
             by have := b64EncChar_ge (b0 % 4 * 16 + b1 / 16); omega⟩
    · exact ⟨by have := b64EncChar_ge (b1 % 16 * 4); omega,
             by have := b64EncChar_ge (b1 % 16 * 4); omega⟩
    · exact ⟨by omega, by omega⟩
  | [b0, b1, b2], c, hc => by
    simp only [b64Encode, List.mem_cons, List.not_mem_nil, or_false] at hc
    rcases hc with rfl | rfl | rfl | rfl
    · exact ⟨by have := b64EncChar_ge (b0 / 4); omega,
             by have := b64EncChar_ge (b0 / 4); omega⟩
    · exact ⟨by have := b64EncChar_ge (b0 % 4 * 16 + b1 / 16); omega,
             by have := b64EncChar_ge (b0 % 4 * 16 + b1 / 16); omega⟩
    · exact ⟨by have := b64EncChar_ge (b1 % 16 * 4 + b2 / 64); omega,
             by have := b64EncChar_ge (b1 % 16 * 4 + b2 / 64); omega⟩
    · exact ⟨by have := b64EncChar_ge (b2 % 64); omega,
             by have := b64EncChar_ge (b2 % 64); omega⟩
  | b0 :: b1 :: b2 :: b3 :: rest, c, hc => by
    rw [b64Encode] at hc
    simp only [List.mem_cons] at hc
    rcases hc with rfl | rfl | rfl | rfl | hc
    · exact ⟨by have := b64EncChar_ge (b0 / 4); omega,
             by have := b64EncChar_ge (b0 / 4); omega⟩
    · exact ⟨by have := b64EncChar_ge (b0 % 4 * 16 + b1 / 16); omega,
             by have := b64EncChar_ge (b0 % 4 * 16 + b1 / 16); omega⟩
    · exact ⟨by have := b64EncChar_ge (b1 % 16 * 4 + b2 / 64); omega,
             by have := b64EncChar_ge (b1 % 16 * 4 + b2 / 64); omega⟩
    · exact ⟨by have := b64EncChar_ge (b2 % 64); omega,
             by have := b64EncChar_ge (b2 % 64); omega⟩
    · exact b64Encode_not_crlf (b3 :: rest) c (by simpa using hc)

theorem filter_eq_self_of {α : Type} (p : α → Bool) :
    ∀ (l : List α), (∀ a, a ∈ l → p a = true) → l.filter p = l
  | [], _ => rfl
  | a :: l, h => by
    rw [List.filter_cons, if_pos (h a (List.mem_cons_self a l)),
        filter_eq_self_of p l (fun b hb => h b (List.mem_cons_of_mem a hb))]

theorem b64Encode_length : ∀ (bs : List Nat),
    (b64Encode bs).length = 4 * ((bs.length + 2) / 3)
  | [] => rfl
  | [b0] => by
    simp [b64Encode]
  | [b0, b1] => by
    simp [b64Encode]
  | [b0, b1, b2] => by
    simp [b64Encode]
  | b0 :: b1 :: b2 :: b3 :: rest => by
    rw [b64Encode]
    simp only [List.length_cons, b64Encode_length (b3 :: rest)]
    omega

theorem b64DecodeQ_one (b0 : Nat) (h0 : b0 < 256) :
    b64DecodeQ [b64EncChar (b0 / 4), b64EncChar (b0 % 4 * 16), 61, 61] =
      some [b0] := by
  rw [b64DecodeQ]
  rw [b64EncDec _ (by omega), b64EncDec _ (by omega)]
  simp only [Option.some_bind]
  simp only [if_true, and_self]
  have e0 : b0 / 4 * 4 + b0 % 4 * 16 / 16 = b0 := by omega
  rw [e0]

theorem b64DecodeQ_two (b0 b1 : Nat) (h0 : b0 < 256) (h1 : b1 < 256) :
    b64DecodeQ [b64EncChar (b0 / 4), b64EncChar (b0 % 4 * 16 + b1 / 16),
                b64EncChar (b1 % 16 * 4), 61] = some [b0, b1] := by
  rw [b64DecodeQ]
  rw [b64EncDec _ (by omega), b64EncDec _ (by omega), b64EncDec _ (by omega)]
  simp only [Option.some_bind]
  rw [if_neg (b64EncChar_ne_pad _)]
  simp only [if_true]
  have e0 : b0 / 4 * 4 + (b0 % 4 * 16 + b1 / 16) / 16 = b0 := by omega
  have e1 : (b0 % 4 * 16 + b1 / 16) % 16 * 16 + b1 % 16 * 4 / 4 = b1 := by omega
  rw [e0, e1]

theorem b64DecodeQ_chunk (b0 b1 b2 : Nat) (h0 : b0 < 256) (h1 : b1 < 256)
    (h2 : b2 < 256) (rest : List Nat) :
    b64DecodeQ (b64EncChar (b0 / 4) :: b64EncChar (b0 % 4 * 16 + b1 / 16) ::
      b64EncChar (b1 % 16 * 4 + b2 / 64) :: b64EncChar (b2 % 64) :: rest) =
    (b64DecodeQ rest).map (fun bs => b0 :: b1 :: b2 :: bs) := by
  rw [b64DecodeQ]
  rw [b64EncDec _ (by omega), b64EncDec _ (by omega), b64EncDec _ (by omega),
      b64EncDec _ (by omega)]
  simp only [Option.some_bind]
  rw [if_neg (b64EncChar_ne_pad _), if_neg (b64EncChar_ne_pad _)]
  have e0 : b0 / 4 * 4 + (b0 % 4 * 16 + b1 / 16) / 16 = b0 := by omega
  have e1 : (b0 % 4 * 16 + b1 / 16) % 16 * 16 + (b1 % 16 * 4 + b2 / 64) / 4 = b1 := by
    omega
  have e2 : (b1 % 16 * 4 + b2 / 64) % 4 * 64 + b2 % 64 = b2 := by omega
  rw [e0, e1, e2]

theorem b64DecodeQ_encode : ∀ (bs : List Nat), (∀ b, b ∈ bs → b < 256) →
    b64DecodeQ (b64Encode bs) = some bs
  | [], _ => rfl
  | [b0], hb => by
    rw [b64Encode]
    exact b64DecodeQ_one b0 (hb b0 (by simp))
  | [b0, b1], hb => by
    rw [b64Encode]
    exact b64DecodeQ_two b0 b1 (hb b0 (by simp)) (hb b1 (by simp))
  | b0 :: b1 :: b2 :: rest, hb => by
    rw [b64Encode,
        b64DecodeQ_chunk b0 b1 b2 (hb b0 (by simp)) (hb b1 (by simp))
          (hb b2 (by simp)) (b64Encode rest),
        b64DecodeQ_encode rest (fun b hbm => hb b (by simp [hbm]))]
    rfl

theorem b64Decode_encode (bs : List Nat) (hb : ∀ b, b ∈ bs → b < 256) :
    b64Decode (b64Encode bs) = some bs := by
  rw [b64Decode]
  rw [filter_eq_self_of _ (b64Encode bs) (by
    intro c hc
    have h := b64Encode_not_crlf bs c hc
    exact decide_eq_true ⟨h.1, h.2⟩)]
  exact b64DecodeQ_encode bs hb

theorem le64_lt (v : Nat) : ∀ x, x ∈ le64 v → x < 256 := by
  intro x hx
  simp only [le64, List.mem_cons, List.not_mem_nil, or_false] at hx
  rcases hx with rfl | rfl | rfl | rfl | rfl | rfl | rfl | rfl <;> omega

theorem fromLE8_le64 (v : Nat) (hv : v < 18446744073709551616) :
    fromLE8 (le64 v) = v := by
  show v % 256 + 256 * (v / 256 % 256) + 65536 * (v / 65536 % 256) +
      16777216 * (v / 16777216 % 256) + 4294967296 * (v / 4294967296 % 256) +
      1099511627776 * (v / 1099511627776 % 256) +
      281474976710656 * (v / 281474976710656 % 256) +
      72057594037927936 * (v / 72057594037927936 % 256) = v
  omega

theorem toUInt64_lt (x : Int) : toUInt64 x < 18446744073709551616 := by
  simp only [toUInt64]
  omega

theorem toInt64_toUInt64 (x : Int) (h1 : -9223372036854775808 ≤ x)
    (h2 : x < 9223372036854775808) : toInt64 (toUInt64 x) = x := by
  simp only [toInt64, toUInt64]
  split_ifs <;> omega

theorem signOpen_signSign (S : SignScheme) (m : List Nat) :
    signOpen S (signSign S m) = some m := by
  have htake : (S.sig m ++ m).take 64 = S.sig m := by
    have h := S.sig_length m
    rw [← h]
    exact List.take_left _ _
  have hdrop : (S.sig m ++ m).drop 64 = m := by
    have h := S.sig_length m
    rw [← h]
    exact List.drop_left _ _
  have hlen : ¬ ((S.sig m ++ m).length < signOverhead) := by
    rw [List.length_append, S.sig_length]
    simp only [signOverhead]
    omega
  rw [signOpen, signSign, if_neg hlen, htake, hdrop, if_pos (S.verify_sig m)]

/-- C5: decoding an encoded token round-trips: for all instants from ≤
until (whose Unix-millisecond values are 64-bit, as Go produces), Decode
of Encode returns exactly the two millisecond timestamps, with no error.
The returned times are rebuilt with time.UnixMilli(...).UTC(), so the
millisecond values determine them. -/
theorem claimC5 (S : SignScheme) (f u : GoTime)
    (_hfu : f.sec * 1000000000 + f.nsec ≤ u.sec * 1000000000 + u.nsec)
    (hf1 : -9223372036854775808 ≤ f.unixMilli)
    (hf2 : f.unixMilli < 9223372036854775808)
    (hu1 : -9223372036854775808 ≤ u.unixMilli)
    (hu2 : u.unixMilli < 9223372036854775808) :
    signerDecode S (signerEncodeT S f u) =
      SignerResult.ok f.unixMilli u.unixMilli := by
  have hsigned_bytes : ∀ x, x ∈ signSign S
      (le64 (toUInt64 f.unixMilli) ++ le64 (toUInt64 u.unixMilli)) → x < 256 := by
    intro x hx
    have hx2 : x ∈ S.sig (le64 (toUInt64 f.unixMilli) ++ le64 (toUInt64 u.unixMilli)) ∨
        x ∈ le64 (toUInt64 f.unixMilli) ∨ x ∈ le64 (toUInt64 u.unixMilli) := by
      simpa [signSign] using hx
    rcases hx2 with h | h | h
    · exact S.sig_bytes _ x h
    · exact le64_lt _ x h
    · exact le64_lt _ x h
  have hsigned_len : (signSign S
      (le64 (toUInt64 f.unixMilli) ++ le64 (toUInt64 u.unixMilli))).length = 80 := by
    rw [signSign, List.length_append, S.sig_length]
    rfl
  have hlen : ¬ ((b64Encode (signSign S
      (le64 (toUInt64 f.unixMilli) ++ le64 (toUInt64 u.unixMilli)))).length ≠
        encodedLength) := by
    rw [b64Encode_length, hsigned_len]
    decide
  rw [signerEncodeT, signerEncode, signerDecode, if_neg hlen,
      b64Decode_encode _ hsigned_bytes]
  rw [Option.elim_some, signOpen_signSign, Option.elim_some]
  have ht1 : (le64 (toUInt64 f.unixMilli) ++ le64 (toUInt64 u.unixMilli)).take 8 =
      le64 (toUInt64 f.unixMilli) := rfl
  have ht2 : (le64 (toUInt64 f.unixMilli) ++ le64 (toUInt64 u.unixMilli)).drop 8 =
      le64 (toUInt64 u.unixMilli) := rfl
  have ht3 : (le64 (toUInt64 u.unixMilli)).take 8 = le64 (toUInt64 u.unixMilli) := rfl
  rw [ht1, ht2, ht3, fromLE8_le64 _ (toUInt64_lt _), fromLE8_le64 _ (toUInt64_lt _),
      toInt64_toUInt64 _ hf1 hf2, toInt64_toUInt64 _ hu1 hu2]

/-- Witness for C5: the instants 0s and 1s round-trip through a token. -/
theorem claimC5_witness :
    signerDecode zeroSign (signerEncodeT zeroSign ⟨0, 0⟩ ⟨1, 0⟩) =
      SignerResult.ok ((⟨0, 0⟩ : GoTime).unixMilli) ((⟨1, 0⟩ : GoTime).unixMilli) :=
  claimC5 zeroSign ⟨0, 0⟩ ⟨1, 0⟩ (by decide) (by decide) (by decide) (by decide)
    (by decide)

/-- C6: Decode returns the invalid-format error exactly when the token
length differs from the fixed encoded length or base64 decoding fails;
the invalid-signature error exactly when length and base64 are fine but
signature verification fails; and otherwise the two embedded little-endian
millisecond timestamps (returned as UTC times) with no error. -/
theorem claimC6 (S : SignScheme) (token : List Nat) :
    (signerDecode S token = SignerResult.badFormat ↔
      (token.length ≠ encodedLength ∨ b64Decode token = none)) ∧
    (signerDecode S token = SignerResult.badSignature ↔
      (token.length = encodedLength ∧
        ∃ bs, b64Decode token = some bs ∧ signOpen S bs = none)) ∧
    (∀ fm um, signerDecode S token = SignerResult.ok fm um ↔
      (token.length = encodedLength ∧
        ∃ bs msg, b64Decode token = some bs ∧ signOpen S bs = some msg ∧
          fm = toInt64 (fromLE8 (msg.take 8)) ∧
          um = toInt64 (fromLE8 ((msg.drop 8).take 8)))) := by
  by_cases hlen : token.length = encodedLength
  · rcases hbd : b64Decode token with - | bs
    · have hif : signerDecode S token = SignerResult.badFormat := by
        rw [signerDecode, if_neg (by simp [hlen]), hbd, Option.elim_none]
      refine ⟨?_, ?_, ?_⟩
      · rw [hif]
        simp
      · rw [hif]
        constructor
        · intro h
          exact absurd h (by simp)
        · rintro ⟨-, bs, hbs, -⟩
          exact absurd hbs (by simp)
      · intro fm um
        rw [hif]
        constructor
        · intro h
          exact absurd h (by simp)
        · rintro ⟨-, bs, msg, hbs, -⟩
          exact absurd hbs (by simp)
    · rcases hop : signOpen S bs with - | msg
      · have hif : signerDecode S token = SignerResult.badSignature := by
          rw [signerDecode, if_neg (by simp [hlen]), hbd, Option.elim_some, hop,
              Option.elim_none]
        refine ⟨?_, ?_, ?_⟩
        · rw [hif]
          constructor
          · intro h
            exact absurd h (by simp)
          · rintro (h | h)
            · exact absurd hlen h
            · exact absurd h (by simp)
        · rw [hif]
          constructor
          · intro _
            exact ⟨hlen, bs, rfl, hop⟩
          · intro _
            rfl
        · intro fm um
          rw [hif]
          constructor
          · intro h
            exact absurd h (by simp)
          · rintro ⟨-, bs2, msg, hbs2, hop2, -⟩
            injection hbs2 with hbs2
            subst hbs2
            rw [hop] at hop2
            exact absurd hop2 (by simp)
      · have hif : signerDecode S token =
            SignerResult.ok (toInt64 (fromLE8 (msg.take 8)))
              (toInt64 (fromLE8 ((msg.drop 8).take 8))) := by
          rw [signerDecode, if_neg (by simp [hlen]), hbd, Option.elim_some, hop,
              Option.elim_some]
        refine ⟨?_, ?_, ?_⟩
        · rw [hif]
          constructor
          · intro h
            exact absurd h (by simp)
          · rintro (h | h)
            · exact absurd hlen h
            · exact absurd h (by simp)
        · rw [hif]
          constructor
          · intro h
            exact absurd h (by simp)
          · rintro ⟨-, bs2, hbs2, hop2⟩
            injection hbs2 with hbs2
            subst hbs2
            rw [hop] at hop2
            exact absurd hop2 (by simp)
        · intro fm um
          rw [hif]
          constructor
          · intro h
            injection h with h1 h2
            exact ⟨hlen, bs, msg, rfl, hop, h1.symm, h2.symm⟩
          · rintro ⟨-, bs2, msg2, hbs2, hop2, hfm, hum⟩
            injection hbs2 with hbs2
            subst hbs2
            rw [hop] at hop2
            injection hop2 with hop2
            subst hop2
            rw [hfm, hum]
  · have hif : signerDecode S token = SignerResult.badFormat := by
      rw [signerDecode, if_pos hlen]
    refine ⟨?_, ?_, ?_⟩
    · rw [hif]
      simp [hlen]
    · rw [hif]
      constructor
      · intro h
        exact absurd h (by simp)
      · rintro ⟨h, -⟩
        exact absurd h hlen
    · intro fm um
      rw [hif]
      constructor
      · intro h
        exact absurd h (by simp)
      · rintro ⟨h, -⟩
        exact absurd h hlen

/-- Witness for C6: the empty token has the wrong length and Decode
answers with the invalid-format error. -/
theorem claimC6_witness :
    signerDecode zeroSign [] = SignerResult.badFormat :=
  (claimC6 zeroSign []).1.mpr (Or.inl (by decide))

/-- C10: Encode is deterministic and depends only on the keypair and the
two millisecond timestamps: NaCl signing is deterministic (modeled by the
signature being a function of the message), so two times with equal
UnixMilli values yield identical tokens. -/
theorem claimC10 (S : SignScheme) (f u f2 u2 : GoTime)
    (hf : f.unixMilli = f2.unixMilli) (hu : u.unixMilli = u2.unixMilli) :
    signerEncodeT S f u = signerEncodeT S f2 u2 := by
  rw [signerEncodeT, signerEncodeT, hf, hu]

/-- Witness for C10: two instants within the same millisecond (nanosecond
offsets 1000000 and 1999999) produce identical tokens. -/
theorem claimC10_witness :
    signerEncodeT zeroSign ⟨0, 1000000⟩ ⟨2, 0⟩ =
      signerEncodeT zeroSign ⟨0, 1999999⟩ ⟨2, 0⟩ :=
  claimC10 zeroSign ⟨0, 1000000⟩ ⟨2, 0⟩ ⟨0, 1999999⟩ ⟨2, 0⟩ (by decide) (by decide)

end Blitz
